import Mathlib

/-!
# Verification of the BrownBat core rendering and type-ordering model

This file is a shallow embedding, in Lean 4, of the core of the BrownBat
source-code generation library (files `brownbat/core.py` and `brownbat/C.py`),
together with proofs about the behaviour of the embedded code.

The embedding covers:

* the Python string helpers used by the ordering algorithm
  (`str.strip`, `str.lstrip`, `str.translate` with a deletion table,
  `strip_starting_blank_lines`),
* the `Indentation` class,
* the data model of compound type declarations (`Struct`/`Union`): a rendered
  name together with a list of members, each member contributing the rendered
  text of its declared type,
* the full dependency analysis, three-colour depth-first topological sort, and
  weak-edge rollback of `OrderedTypeContainer.inline_str` (C.py lines 291-405),
* the container rendering path `NodeContainerBase.inline_str` /
  `NodeBase.freestanding_str`, and
* the element-coercion machinery of `NodeContainerBase`
  (`make_node_factory_wrapper`, `__iadd__`, `insert`, `__setitem__`, `__init__`).

Machine-level caveats of the model are documented next to each definition.
-/

/-! ## Python string primitives

Python's `str.strip`/`str.lstrip` with no argument strip ASCII whitespace
(space, tab, newline, carriage return, vertical tab, form feed); the model is
exact for ASCII text, which is the only text the ordering algorithm handles. -/

def pyIsSpace (c : Char) : Bool :=
  c = ' ' || c = '\t' || c = '\n' || c = '\r' || c = '\x0b' || c = '\x0c'

/-- Python `s.lstrip()`. -/
def pyLStrip (s : String) : String :=
  ⟨s.data.dropWhile pyIsSpace⟩

/-- Python `s.strip()`. -/
def pyStrip (s : String) : String :=
  ⟨((s.data.dropWhile pyIsSpace).reverse.dropWhile pyIsSpace).reverse⟩

/-- Python `s.translate(str.maketrans({char: None for char in '*()'}))`:
deletes every `*`, `(` and `)` character (C.py line 307/334). -/
def stripPtrChars (s : String) : String :=
  ⟨s.data.filter (fun c => !(c = '*' || c = '(' || c = ')'))⟩

/-- Position scan of `strip_starting_blank_lines` (core.py lines 123-133):
walk the string remembering the position of the last newline seen, stopping at
the first character that is not `\n`, `\t`, space or `\x0b` (vertical tab). -/
def sblScan : List Char → Nat → Nat → Nat
  | [], _, last => last
  | c :: cs, pos, last =>
    if c = '\n' then sblScan cs (pos + 1) pos
    else if c = '\t' || c = ' ' || c = '\x0b' then sblScan cs (pos + 1) last
    else last

/-- Model of `strip_starting_blank_lines(snippet)`: keep the string from the last
newline of the leading blank run onwards (`snippet[last_new_line_pos:]`). -/
def stripStartingBlankLines (s : String) : String :=
  ⟨s.data.drop (sblScan s.data 0 0)⟩

/-! ## Indentation (core.py lines 135-186)

`Indentation` carries an integer level (which `dedent` can drive negative) and
the per-instance indentation unit. Python's `'    ' * n` is `''` for `n ≤ 0`,
which is the behaviour of `Int.toNat` composed with replication. -/

structure Idt where
  level : Int
  unit : String

/-- The default indentation context `Indentation()` (level 0, four spaces). -/
def idtDefault : Idt := ⟨0, "    "⟩

/-- Python `str(idt)`: the indentation unit repeated `level` times (empty when the
level is zero or negative). -/
def idtString (i : Idt) : String :=
  String.join (List.replicate i.level.toNat i.unit)

/-! ## Data model of compound type declarations

A `Struct`/`Union` object is embedded as the rendered text of its name plus
its list of members.  For each member the ordering algorithm reads only
`member.type.inline_str()` (the rendered type text); the member name is kept
for body rendering.  Members with storage classes, array sizes or initializers
add text that the ordering algorithm never inspects and are outside the model.
-/

structure CMember where
  type : String
  mname : String
deriving DecidableEq

structure CDecl where
  name : String
  members : List CMember
deriving DecidableEq

instance : Inhabited CDecl := ⟨⟨"", []⟩⟩

/-- One top-level element of an `OrderedTypeContainer`.  Compound type
declarations are held on a heap (`List CDecl`) and referenced by index, which
plays the role of Python object identity (`id(item)`): two structurally equal
declarations are distinct objects, and the same object may appear twice.

* `declRef r` — a `Struct`/`Union` object (the only elements the analysis
  collects, C.py line 298);
* `fwdRef r` — a `CompoundTypeForwardDeclaration` view of declaration `r`;
* `newLine` — a `NewLine()` node;
* `other s` — any other node, opaque to the analysis, whose freestanding
  rendering is the stored string. -/
inductive CElem where
  | declRef (r : Nat)
  | fwdRef (r : Nat)
  | newLine
  | other (s : String)
deriving DecidableEq

/-! ## Dependency analysis (C.py lines 295-346) -/

/-- Insertion into the `collections.OrderedDict` used for `type_dict`:
updating an existing key keeps its position and replaces its value
("last write wins"), a new key is appended. -/
def odInsert (d : List (String × Nat)) (k : String) (v : Nat) : List (String × Nat) :=
  if d.any (fun p => p.1 = k) then
    d.map (fun p => if p.1 = k then (k, v) else p)
  else
    d ++ [(k, v)]

/-- Ordered-dictionary lookup. -/
def odLookup (d : List (String × Nat)) (k : String) : Option Nat :=
  (d.find? (fun p => p.1 = k)).map (fun p => p.2)

/-- The values of `type_dict` in key-insertion order. -/
def odValues (d : List (String × Nat)) : List Nat :=
  d.map (fun p => p.2)

/-- C.py lines 296-299: scan the container's top-level elements and map each
`Struct`/`Union`'s rendered, stripped name to the object. -/
def typeDictOf (heap : List CDecl) (lst : List CElem) : List (String × Nat) :=
  lst.foldl
    (fun d e =>
      match e with
      | CElem.declRef r => odInsert d (pyStrip (heap.getD r default).name) r
      | _ => d)
    []

/-- Python `s.startswith(pre)`: a plain character-prefix test (Python strings
are character sequences, so the model works on the character list). -/
def pyStartsWith (s pre : String) : Bool :=
  pre.data.isPrefixOf s.data

/-- Python `s[n:]`: drop the first `n` characters. -/
def pyDropChars (s : String) (n : Nat) : String :=
  ⟨s.data.drop n⟩

/-- C.py lines 316-319: strip one recognized leading qualifier keyword.  The
match is a plain `startswith` test, tried for `struct`, then `enum`, then
`union`, stripping only the first that matches
(`member_type_name[len(prefix):]`), followed by `lstrip()`. -/
def qualStrip (s : String) : String :=
  if pyStartsWith s "struct" then pyLStrip (pyDropChars s 6)
  else if pyStartsWith s "enum" then pyLStrip (pyDropChars s 4)
  else if pyStartsWith s "union" then pyLStrip (pyDropChars s 5)
  else s

/-- C.py lines 312-346, for a single member: compute the member's stripped
type text, strip a qualifier keyword, and resolve it against the name map:
an exact match is a strong dependency (`some (true, target)`); otherwise
deleting `*`/`(`/`)` characters and re-stripping may give a weak dependency
(`some (false, target)`); otherwise there is no edge. -/
def resolveMember (td : List (String × Nat)) (mtype : String) : Option (Bool × Nat) :=
  let t := qualStrip (pyStrip mtype)
  match odLookup td t with
  | some r => some (true, r)
  | none =>
    match odLookup td (pyStrip (stripPtrChars t)) with
    | some r => some (false, r)
    | none => none

/-- Model of `dependency_dict[r]`: the strong-edge targets of declaration `r`, in
member order.  (`dependency_dict` is keyed by object; the model keys by
heap reference, which is the same thing.) -/
def strongDepsOf (heap : List CDecl) (td : List (String × Nat)) (r : Nat) : List Nat :=
  (heap.getD r default).members.filterMap
    (fun m =>
      match resolveMember td m.type with
      | some (true, r') => some r'
      | _ => none)

/-- Model of `weak_dependency_dict[r]`: the weak-edge (pointer) targets of `r`. -/
def weakDepsOf (heap : List CDecl) (td : List (String × Nat)) (r : Nat) : List Nat :=
  (heap.getD r default).members.filterMap
    (fun m =>
      match resolveMember td m.type with
      | some (false, r') => some r'
      | _ => none)

/-- Model of `types_to_sort_list`: iterating `type_dict.values()`, each declaration is
appended once per member that resolves to an edge (strong or weak), so the
list may contain duplicates (C.py lines 330/343, comment line 388). -/
def toSortListOf (heap : List CDecl) (td : List (String × Nat)) : List Nat :=
  (odValues td).flatMap
    (fun r =>
      (heap.getD r default).members.filterMap
        (fun m => (resolveMember td m.type).map (fun _ => r)))

/-! ## The three-colour depth-first sort (C.py lines 348-390)

The sort state mirrors the four mutable structures of `inline_str`:
`sorted_node_list`, `temporary_marked`, `permanently_marked` and
`forward_decl_type_set`.  The three Python sets are modelled as
insertion-ordered duplicate-free lists; only membership in them is ever
inspected by the algorithm itself.  (The rendering step later iterates
`forward_decl_type_set` in Python set order, which is unspecified — see
`orderedSynthList`.) -/

structure SortState where
  sorted : List Nat
  temp : List Nat
  perm : List Nat
  fwd : List Nat
deriving DecidableEq

/-- Python `set.add`: a no-op when the element is present. -/
def addSet (l : List Nat) (x : Nat) : List Nat :=
  if x ∈ l then l else l ++ [x]

/-- The initial sort state: all four structures empty (C.py lines 349-353). -/
def initSortState : SortState := ⟨[], [], [], []⟩

/-- Why the Python `visit` terminates and what can stop it.  The Python code
raises `ValueError` when a strong-edge traversal revisits an in-progress
node; the model adds an artificial `fuel` outcome so that the recursion is
structural.  Separate theorems (`visit_post`,
`sortPhase_post`) show the fuel outcome never occurs for the fuel budget
`sortPhase` supplies, so the model's
observable outcomes coincide with the Python ones. -/
inductive VErr where
  | cycle
  | fuel
deriving DecidableEq

/-- The strong-edge loop (C.py lines 362-363) and also the shape of the
top-level loop (lines 389-390): visit each node in turn, aborting on the
first exception, which propagates to the caller together with the state as
mutated so far. -/
def runStrong (visitF : Nat → SortState → SortState × Option VErr) :
    List Nat → SortState → SortState × Option VErr
  | [], s => (s, none)
  | d :: ds, s =>
    match visitF d s with
    | (s', none) => runStrong visitF ds s'
    | (s', some e) => (s', some e)

/-- The weak-edge loop (C.py lines 364-380).  Before each attempted visit the
four structures are backed up (lines 367-370); if the visit raises the cycle
`ValueError`, the target is added to `forward_decl_type_set` and
`sorted_node_list`, `temporary_marked` and `permanently_marked` are restored
from the backups (lines 374-379).  `forward_decl_type_set` is backed up at
line 370 but never restored, so additions made during the failed attempt
survive: the restored state keeps the *post-failure* forward set `s'.fwd`. -/
def runWeak (visitF : Nat → SortState → SortState × Option VErr) :
    List Nat → SortState → SortState × Option VErr
  | [], s => (s, none)
  | d :: ds, s =>
    match visitF d s with
    | (s', none) => runWeak visitF ds s'
    | (s', some VErr.cycle) =>
      runWeak visitF ds
        { sorted := s.sorted, temp := s.temp, perm := s.perm,
          fwd := addSet s'.fwd d }
    | (s', some VErr.fuel) => (s', some VErr.fuel)

/-- Model of `visit(node)` (C.py lines 354-384): raise on an in-progress node, return
on a done node, otherwise mark in-progress, recurse through strong edges
(propagating failures), run the weak-edge loop, then mark done, unmark
in-progress and append to the sorted output list. -/
def visit (strong weak : Nat → List Nat) : Nat → Nat → SortState → SortState × Option VErr
  | 0, _, s => (s, some VErr.fuel)
  | fuel + 1, node, s =>
    if node ∈ s.temp then (s, some VErr.cycle)
    else if node ∈ s.perm then (s, none)
    else
      let s1 : SortState := { s with temp := addSet s.temp node }
      match runStrong (visit strong weak fuel) (strong node) s1 with
      | (s2, some e) => (s2, some e)
      | (s2, none) =>
        match runWeak (visit strong weak fuel) (weak node) s2 with
        | (s3, some e) => (s3, some e)
        | (s3, none) =>
          ({ sorted := s3.sorted ++ [node], temp := s3.temp.erase node,
             perm := addSet s3.perm node, fwd := s3.fwd }, none)

/-- The whole sort of one container: build the name map, derive the edges,
and run the top-level visitation loop (C.py lines 389-390) over
`types_to_sort_list` from the empty state.  The fuel `lst.length + 1`
strictly exceeds the number of distinct declarations, which
`sortPhase_post` below shows is enough. -/
def sortPhase (heap : List CDecl) (lst : List CElem) : SortState × Option VErr :=
  let td := typeDictOf heap lst
  runStrong
    (visit (strongDepsOf heap td) (weakDepsOf heap td) (lst.length + 1))
    (toSortListOf heap td) initSortState

/-- The message of the `ValueError` raised at C.py line 359.  It is a fixed
string: the error does not carry the names of the implicated declarations. -/
def cyclicMsg : String :=
  "The dependency graph of compound types is not a DAG, cannot sort the type definitions"

/-- Marker for the artificial out-of-fuel outcome; proved unreachable. -/
def fuelMsg : String := "model: out of fuel (unreachable)"

/-- C.py lines 393-402: on success, the synthesized element order written
into the copy's `node_list`:
forward declarations (one per node recorded in `forward_decl_type_set`),
then the sorted declarations, then one `NewLine()` separator, then every
original element whose object identity is not among the sorted declarations,
in original relative order.

Model caveat: the source iterates `forward_decl_type_set` — a Python `set`
of objects hashed by `id()` — so the relative order of two or more forward
declarations depends on memory addresses and is not determined by the
source.  The model iterates the set in insertion order; no theorem in this
file about multi-element forward-declaration sets depends on that order. -/
def orderedSynthList (heap : List CDecl) (lst : List CElem) : Except String (List CElem) :=
  match sortPhase heap lst with
  | (st, none) =>
    Except.ok
      (st.fwd.map CElem.fwdRef ++ st.sorted.map CElem.declRef ++ [CElem.newLine] ++
        lst.filter
          (fun e =>
            match e with
            | CElem.declRef r => !decide (r ∈ st.sorted)
            | _ => true))
  | (_, some VErr.cycle) => Except.error cyclicMsg
  | (_, some VErr.fuel) => Except.error fuelMsg

/-! ## The rollback semantics stated by the specification (for comparison)

Modelled from the spec: "that attempt is abandoned and rolled back (all
sort-state mutations made during the attempted visit are undone), and the
target of that edge is instead recorded as needing a forward declaration".
`runWeakSpec` differs from `runWeak` in exactly one place: on a failed
attempt it restores `forward_decl_type_set` from its backup too (discarding
the additions `s'.fwd` made during the failed attempt) before recording the
edge's target. -/

def runWeakSpec (visitF : Nat → SortState → SortState × Option VErr) :
    List Nat → SortState → SortState × Option VErr
  | [], s => (s, none)
  | d :: ds, s =>
    match visitF d s with
    | (s', none) => runWeakSpec visitF ds s'
    | (_, some VErr.cycle) =>
      runWeakSpec visitF ds
        { sorted := s.sorted, temp := s.temp, perm := s.perm,
          fwd := addSet s.fwd d }
    | (s', some VErr.fuel) => (s', some VErr.fuel)

/-- Model of `visit` under the specification's full-rollback reading. -/
def visitSpec (strong weak : Nat → List Nat) : Nat → Nat → SortState → SortState × Option VErr
  | 0, _, s => (s, some VErr.fuel)
  | fuel + 1, node, s =>
    if node ∈ s.temp then (s, some VErr.cycle)
    else if node ∈ s.perm then (s, none)
    else
      let s1 : SortState := { s with temp := addSet s.temp node }
      match runStrong (visitSpec strong weak fuel) (strong node) s1 with
      | (s2, some e) => (s2, some e)
      | (s2, none) =>
        match runWeakSpec (visitSpec strong weak fuel) (weak node) s2 with
        | (s3, some e) => (s3, some e)
        | (s3, none) =>
          ({ sorted := s3.sorted ++ [node], temp := s3.temp.erase node,
             perm := addSet s3.perm node, fwd := s3.fwd }, none)

/-- The whole sort under the specification's full-rollback reading. -/
def sortPhaseSpec (heap : List CDecl) (lst : List CElem) : SortState × Option VErr :=
  let td := typeDictOf heap lst
  runStrong
    (visitSpec (strongDepsOf heap td) (weakDepsOf heap td) (lst.length + 1))
    (toSortListOf heap td) initSortState

/-! ## Rendering (core.py lines 379-390, 589-607; C.py lines 973-1035, 1458-1463)

Struct bodies are rendered through `CompoundType.freestanding_str` with the
default `auto_typedef=True` format string
`"typedef struct {name}{members} {name};{side_comment}"`, member lines
through the `Var`/`VarDecl` path for a member with only a type and a name,
and the block through `BlockStmt.inline_str`.  All comments and side comments
are the phantom node, rendering as the empty string.  Braces are written
with their character codes to keep them out of string literals. -/

def lbrace : String := String.singleton (Char.ofNat 123)

def rbrace : String := String.singleton (Char.ofNat 125)

/-- Model of `NodeBase.freestanding_str` (core.py lines 379-390): prepend a newline and
the indentation, unless the inline rendering is empty, in which case render
nothing. -/
def nodeBaseFreestanding (inl : String) (idt : Idt) : String :=
  if inl = "" then "" else "\n" ++ idtString idt ++ inl

/-- Model of `VarDecl.inline_str` (C.py lines 788-822) for a member with no storage
class, no array size and no initializer: a space for the empty storage list,
the type text (with a space appended unless it ends in `*`), and the name,
with the whole line stripped at the end. -/
def memberInline (m : CMember) : String :=
  pyStrip (" " ++ m.type ++ (if m.type.data.getLast? == some '*' then "" else " ") ++ m.mname)

/-- A member's freestanding rendering (`VarDecl.freestanding_str`,
C.py lines 784-786): newline, indentation, inline form, semicolon. -/
def memberFreestanding (m : CMember) (idt : Idt) : String :=
  "\n" ++ idtString idt ++ memberInline m ++ ";"

/-- Model of `NodeContainerBase.inline_str` (core.py lines 589-600): concatenate every
element's freestanding rendering (comments are phantom) and strip the blank
lines at the beginning. -/
def containerInlineOf (renders : List String) : String :=
  stripStartingBlankLines (String.join renders)

/-- Model of `BlockStmt.inline_str` (C.py lines 264-279) for a struct body: an opening
brace on a fresh line, the members at one deeper indentation, and the closing
brace. -/
def blockInline (ms : List CMember) (idt : Idt) : String :=
  "\n" ++ idtString idt ++ lbrace ++
    containerInlineOf (ms.map (fun m => memberFreestanding m ⟨idt.level + 1, idt.unit⟩)) ++
    "\n" ++ idtString idt ++ rbrace

/-- Model of `CompoundType.freestanding_str` (C.py lines 987-1004) with the `Struct`
typedef format string: two newlines, indentation, then
`typedef struct <name><members> <name>;`. -/
def structFreestanding (d : CDecl) (idt : Idt) : String :=
  "\n\n" ++ idtString idt ++ "typedef struct " ++ d.name ++
    blockInline d.members idt ++ " " ++ d.name ++ ";"

/-- Model of `CompoundTypeForwardDeclaration` (C.py lines 1024-1035) for a `Struct`
with `auto_typedef`: `struct <name>;` then, on a fresh indented line,
`typedef struct <name> <name>;`; rendered freestanding through
`NodeBase.freestanding_str`. -/
def fwdDeclInline (d : CDecl) (idt : Idt) : String :=
  "struct " ++ d.name ++ ";" ++ "\n" ++ idtString idt ++
    "typedef struct " ++ d.name ++ " " ++ d.name ++ ";"

/-- The freestanding rendering of one container element. -/
def elemFreestanding (heap : List CDecl) (idt : Idt) : CElem → String
  | CElem.declRef r => structFreestanding (heap.getD r default) idt
  | CElem.fwdRef r => nodeBaseFreestanding (fwdDeclInline (heap.getD r default) idt) idt
  | CElem.newLine => "\n" ++ idtString idt
  | CElem.other s => s

/-- Rendering a list of elements through the ordinary container path. -/
def containerInlineStr (heap : List CDecl) (idt : Idt) (elems : List CElem) : String :=
  containerInlineOf (elems.map (elemFreestanding heap idt))

/-! ## The ordered container with its mutable element list

`OrderedTypeContainer.inline_str` starts with `self_copy = copy.copy(self)`
(C.py line 293); `NodeContainerBase.__copy__` (core.py lines 609-616) makes a
new object whose `node_list` is a shallow copy.  To state that the caller's
container is *not* mutated, containers are given explicit identities: a store
maps container references to element lists, copying allocates a fresh
reference, and the final `self_copy[:] = ...` (line 402) writes through the
copy's reference. -/

abbrev CStore := List (List CElem)

/-- Model of `OrderedTypeContainer.inline_str` (C.py lines 291-405) over the store:
read `self`'s element list, allocate the copy, sort, write the synthesized
order into the copy, and render the copy through
`StmtContainer.inline_str` — or propagate the cycle `ValueError`, in which
case the write never happens. -/
def orderedInlineStr (heap : List CDecl) (σ : CStore) (self : Nat) (idt : Idt) :
    CStore × Except String String :=
  let lst := σ.getD self []
  let σ1 := σ ++ [lst]
  match orderedSynthList heap lst with
  | Except.ok newList => (σ1.set σ.length newList, Except.ok (containerInlineStr heap idt newList))
  | Except.error m => (σ1, Except.error m)

/-- Model of `NodeContainerBase.freestanding_str` (core.py lines 602-607) on the
ordered container: the default freestanding wrapper around `inline_str`,
then `strip_starting_blank_lines`. -/
def orderedFreestandingStr (heap : List CDecl) (σ : CStore) (self : Nat) (idt : Idt) :
    CStore × Except String String :=
  match orderedInlineStr heap σ self idt with
  | (σ', Except.ok t) => (σ', Except.ok (stripStartingBlankLines (nodeBaseFreestanding t idt)))
  | (σ', Except.error m) => (σ', Except.error m)

/-- The number of candidate nodes not yet in-progress: the quantity that
strictly decreases when `visit` marks a node in-progress and recurses. -/
def gasOf (D temp : List Nat) : Nat :=
  (D.filter (fun x => decide (x ∉ temp))).length

/-- The sorted output list is a topological order of the strong edges: each
node is appended only after all of its strong-edge targets are present. -/
inductive SortedOK (strong : Nat → List Nat) : List Nat → Prop where
  | nil : SortedOK strong []
  | snoc {l : List Nat} {n : Nat} (h : SortedOK strong l)
      (hdeps : ∀ d ∈ strong n, d ∈ l) : SortedOK strong (l ++ [n])

/-- The invariant of the sort state: the sorted list is duplicate-free, the
done set is exactly the membership of the sorted list, and the sorted list is
strong-edge topologically ordered. -/
def SortInv (strong : Nat → List Nat) (s : SortState) : Prop :=
  s.sorted.Nodup ∧ (∀ x, x ∈ s.perm ↔ x ∈ s.sorted) ∧ SortedOK strong s.sorted

/-- One successful call's effect on the sort state, as seen by its caller:
the in-progress set is restored, the done set only grows, the sorted list is
only appended to, nodes in-progress at entry are never newly marked done, and
the invariant is preserved. -/
def StepOk (strong : Nat → List Nat) (s s' : SortState) : Prop :=
  s'.temp = s.temp ∧
  (∀ x ∈ s.perm, x ∈ s'.perm) ∧
  (∃ t, s'.sorted = s.sorted ++ t) ∧
  (∀ x ∈ s'.perm, x ∈ s.perm ∨ x ∉ s.temp) ∧
  (SortInv strong s → SortInv strong s')

/-- The behaviour required of a visit function by the loop lemmas: below the
fuel bound it never reports fuel exhaustion, and on success it behaves like
one `StepOk` step that marks its argument done. -/
def VisitPost (strong : Nat → List Nat) (D : List Nat) (F : Nat)
    (visitF : Nat → SortState → SortState × Option VErr) : Prop :=
  ∀ node s, node ∈ D → gasOf D s.temp < F →
    (visitF node s).2 ≠ some VErr.fuel ∧
    ((visitF node s).2 = none →
      StepOk strong s (visitF node s).1 ∧ node ∈ (visitF node s).1.perm)

/-! ## A strong-edge cycle forces the cyclic-dependency error -/

/-- A strong (by-value) dependency edge of the container: the source is one
of the collected declarations and the target one of its strong-edge
resolutions. -/
def strongEdge (heap : List CDecl) (td : List (String × Nat)) (n m : Nat) : Prop :=
  n ∈ odValues td ∧ m ∈ strongDepsOf heap td n

/-- The container's strong edges alone form a cycle: some declaration
strongly reaches itself through one or more strong edges. -/
def StrongCycle (heap : List CDecl) (lst : List CElem) : Prop :=
  ∃ n, Relation.TransGen (strongEdge heap (typeDictOf heap lst)) n n

/-! ## Frame properties of the render -/

/-- The rendered output depends on the store only through the rendered
container's element list. -/
def orderedRenderOut (heap : List CDecl) (lst : List CElem) (idt : Idt) :
    Except String String :=
  match orderedSynthList heap lst with
  | Except.ok newList => Except.ok (containerInlineStr heap idt newList)
  | Except.error m => Except.error m

/-! ## Claim C1 -/

/-- A mutual strong (by-value) pair whose names are made of `z`s. -/
def declZ1 : CDecl := ⟨"zzz1", [⟨"zzz2", "m2"⟩]⟩

def declZ2 : CDecl := ⟨"zzz2", [⟨"zzz1", "m1"⟩]⟩

def heapMutualValue : List CDecl := [declZ1, declZ2]

/-- The same mutual strong pair with names made of `q`s. -/
def declQ1 : CDecl := ⟨"qqq1", [⟨"qqq2", "m2"⟩]⟩

def declQ2 : CDecl := ⟨"qqq2", [⟨"qqq1", "m1"⟩]⟩

def heapMutualValueQ : List CDecl := [declQ1, declQ2]

def lstMutualValue : List CElem := [CElem.declRef 0, CElem.declRef 1]

/-- A mutual pointer pair: `A` has a member of type `B *` and `B` a member of
type `A *`. -/
def declPtrA : CDecl := ⟨"A", [⟨"B *", "pb"⟩]⟩

def declPtrB : CDecl := ⟨"B", [⟨"A *", "pa"⟩]⟩

def heapMutualPtr : List CDecl := [declPtrA, declPtrB]

def lstMutualPtr : List CElem := [CElem.declRef 0, CElem.declRef 1]

/-! ## Claim C2

The container below exercises the weak-edge rollback with a nested,
already-rolled-back forward-declaration recording:

* `A` has a pointer member `B *` (weak edge A→B),
* `B` contains `C` and `A` by value (strong edges B→C, B→A),
* `C` has a pointer member `D *` (weak edge C→D),
* `D` contains `A` by value (strong edge D→A).

Visiting `A` first, the weak edge A→B starts a visit of `B` that eventually
fails (B strongly needs `A`, which is in progress).  During that doomed
attempt, `C` is visited and its weak edge to `D` fails too (D strongly needs
the in-progress `A`), so `D` is added to `forward_decl_type_set`.  The B
attempt is then rolled back — but the code restores only `sorted_node_list`,
`temporary_marked` and `permanently_marked` (C.py lines 377-379); the backup
of `forward_decl_type_set` taken at line 370 is never used, so `D` stays
recorded.  In the clean re-traversal (`B` visited from the top level), `D`
is fully defined before `C` and needs no forward declaration: rendering
emits a spurious `D` forward declaration that the claimed full rollback
(modelled by `sortPhaseSpec`) does not emit. -/

def heapRollback : List CDecl :=
  [⟨"A", [⟨"B *", "pb"⟩]⟩,
   ⟨"B", [⟨"C", "c"⟩, ⟨"A", "a"⟩]⟩,
   ⟨"C", [⟨"D *", "pd"⟩]⟩,
   ⟨"D", [⟨"A", "a"⟩]⟩]

def lstRollback : List CElem :=
  [CElem.declRef 0, CElem.declRef 1, CElem.declRef 2, CElem.declRef 3]

/-- An edge-free container: one declaration with only a primitive-typed
member, followed by an opaque statement node. -/
def heapEdgeFree : List CDecl := [⟨"A", [⟨"int", "x"⟩]⟩]

def lstEdgeFree : List CElem := [CElem.declRef 0, CElem.other "\nx = 1;"]

/-! ## Claim C7: the freestanding-rendering rule

`NodeBase.freestanding_str` (core.py lines 379-390) implements
newline+indentation+inline with the suppress-if-empty rule, and node kinds
that do not override it (e.g. `TokenList`) inherit it.  But many node kinds
override `freestanding_str`: `_Expr.freestanding_str` (C.py lines 167-174)
renders `'\n' + indent + '{expr};{side_comment}'`, which for an empty
expression is a newline and a semicolon, not the empty string. -/

/-- Model of `TokenListBase.inline_str` (core.py lines 848-867) for plain string
tokens: concatenate their `str` forms. -/
def tokenListInline (tokens : List String) : String :=
  String.join tokens

/-- Class `TokenListBase` inherits `NodeBase.freestanding_str` unchanged. -/
def tokenListFreestanding (tokens : List String) (idt : Idt) : String :=
  nodeBaseFreestanding (tokenListInline tokens) idt

/-- Python `snippet.replace("\n", repl)` for the one-character pattern used
by `_IndentedTokenListBase.inline_str` (core.py lines 969-977). -/
def replaceNl (s repl : String) : String :=
  ⟨s.data.flatMap (fun c => if c = '\n' then repl.data else [c])⟩

/-- Model of `Expr.inline_str`: an `IndentedTokenList` re-indents every newline of
the concatenated tokens. -/
def exprInline (tokens : List String) (idt : Idt) : String :=
  replaceNl (tokenListInline tokens) ("\n" ++ idtString idt)

/-- Model of `_Expr.freestanding_str` (C.py lines 167-174) with a phantom side
comment: newline, indentation, the inline expression, a semicolon. -/
def exprFreestanding (tokens : List String) (idt : Idt) : String :=
  "\n" ++ idtString idt ++ exprInline tokens idt ++ ";"

/-! ## Claim C9: container element coercion -/

/-- A fragment of the node class hierarchy sufficient for the coercion
machinery: `NodeABC` at the root, `TokenList` below it, `Expr` below
`TokenList` (through `IndentedTokenList`). -/
inductive PyClass where
  | nodeABC
  | tokenList
  | expr
deriving DecidableEq

def isSubclassOf : PyClass → PyClass → Bool
  | _, PyClass.nodeABC => true
  | PyClass.tokenList, PyClass.tokenList => true
  | PyClass.expr, PyClass.tokenList => true
  | PyClass.expr, PyClass.expr => true
  | _, _ => false

/-- A Python value entering a container: a node instance (with its class and
payload) or a raw non-node value such as a plain string. -/
inductive PyVal where
  | node (cls : PyClass) (payload : String)
  | raw (s : String)
deriving DecidableEq

/-- Python `isinstance(v, self.node_classinfo)` for a classinfo tuple. -/
def isInstance (v : PyVal) (classinfo : List PyClass) : Bool :=
  match v with
  | PyVal.node c _ => classinfo.any (fun k => isSubclassOf c k)
  | PyVal.raw _ => false

/-- Python `isinstance(v, NodeABC)`. -/
def isNodeABC (v : PyVal) : Bool :=
  match v with
  | PyVal.node _ _ => true
  | PyVal.raw _ => false

/-- The message of the `ValueError` raised by the factory wrapper
(core.py line 576) — the spec's `InvalidElement`. -/
def invalidElementMsg : String := "The node factory did not give a NodeABC"

/-- Model of `make_node_factory_wrapper` (core.py lines 570-581): run the factory and
fail unless its result is a `NodeABC`.  Only `NodeABC`-membership is
re-checked — not membership in the container's `node_classinfo`. -/
def wrappedFactory (factory : PyVal → PyVal) (v : PyVal) : Except String PyVal :=
  if isNodeABC (factory v) then Except.ok (factory v)
  else Except.error invalidElementMsg

/-- The element coercion shared by `__init__` (core.py lines 583-586),
`__iadd__` (653-660), `insert` (622-627) and `__setitem__` (697-701): a
value already satisfying the classinfo is kept, anything else goes through
the wrapped factory. -/
def coerceElem (classinfo : List PyClass) (factory : PyVal → PyVal) (v : PyVal) :
    Except String PyVal :=
  if isInstance v classinfo then Except.ok v else wrappedFactory factory v

structure PyContainer where
  classinfo : List PyClass
  nodeList : List PyVal
deriving DecidableEq

/-- The list comprehension coercing a whole list (used by `__init__` and
`__iadd__`): it completes — or raises — before any container mutation. -/
def coerceList (classinfo : List PyClass) (factory : PyVal → PyVal) :
    List PyVal → Except String (List PyVal)
  | [] => Except.ok []
  | v :: vs =>
    match coerceElem classinfo factory v with
    | Except.ok n => (coerceList classinfo factory vs).map (fun ns => n :: ns)
    | Except.error m => Except.error m

/-- Model of `__iadd__`/`append` (core.py lines 653-664). -/
def containerAppend (c : PyContainer) (factory : PyVal → PyVal) (vs : List PyVal) :
    Except String PyContainer :=
  (coerceList c.classinfo factory vs).map
    (fun ns => { c with nodeList := c.nodeList ++ ns })

/-- Construction from an initial list (core.py lines 583-586). -/
def containerInit (classinfo : List PyClass) (factory : PyVal → PyVal) (vs : List PyVal) :
    Except String PyContainer :=
  (coerceList classinfo factory vs).map
    (fun ns => { classinfo := classinfo, nodeList := ns })

/-- Model of `insert` (core.py lines 622-627) for a single value: coerce, then insert
at the index.  (For a sequence the source interleaves coercion and
insertion; the single-value case is the shared coercion behaviour.) -/
def containerInsertOne (c : PyContainer) (factory : PyVal → PyVal) (index : Nat) (v : PyVal) :
    Except String PyContainer :=
  (coerceElem c.classinfo factory v).map
    (fun n => { c with nodeList := c.nodeList.insertIdx index n })

/-- Model of `__setitem__` (core.py lines 697-701). -/
def containerSetItem (c : PyContainer) (factory : PyVal → PyVal) (i : Nat) (v : PyVal) :
    Except String PyContainer :=
  (coerceElem c.classinfo factory v).map
    (fun n => { c with nodeList := c.nodeList.set i n })

/-- A factory like `TokenList`: wraps any value into a `TokenList` node. -/
def tokenListFactory : PyVal → PyVal :=
  fun v =>
    match v with
    | PyVal.raw s => PyVal.node PyClass.tokenList s
    | PyVal.node _ p => PyVal.node PyClass.tokenList p

/-! ## Properties of the sort: invariants and termination

The following development proves that the depth-first sort terminates (the
artificial fuel outcome is unreachable for the budget `sortPhase` supplies)
and that on success the sorted output list is a duplicate-free topological
order of the strong edges containing every node submitted to the top loop.
This is what turns a strong-edge cycle into a guaranteed `ValueError`. -/

theorem addSet_of_not_mem {l : List Nat} {x : Nat} (h : x ∉ l) : addSet l x = l ++ [x] := by
  simp [addSet, h]

theorem mem_addSet_self (l : List Nat) (x : Nat) : x ∈ addSet l x := by
  unfold addSet
  split
  · assumption
  · simp

theorem mem_addSet_of_mem {l : List Nat} {y : Nat} (x : Nat) (h : y ∈ l) : y ∈ addSet l x := by
  unfold addSet
  split
  · assumption
  · simp [h]

theorem mem_addSet_iff {l : List Nat} {x y : Nat} : y ∈ addSet l x ↔ y ∈ l ∨ y = x := by
  unfold addSet
  split
  · rename_i hx
    constructor
    · exact fun h => Or.inl h
    · rintro (h | rfl) <;> assumption
  · simp

/-- Python `temporary_marked.discard(node)` after the node was added to a set not
containing it: the original set. -/
theorem erase_append_self {l : List Nat} {x : Nat} (h : x ∉ l) :
    (l ++ [x]).erase x = l := by
  rw [List.erase_append_right _ h]
  simp

theorem length_filter_mono {l : List Nat} {p q : Nat → Bool}
    (h : ∀ x ∈ l, p x = true → q x = true) :
    (l.filter p).length ≤ (l.filter q).length := by
  induction l with
  | nil => simp
  | cons a l ih =>
    have ih' := ih (fun x hx hp => h x (List.mem_cons_of_mem a hx) hp)
    by_cases hp : p a = true
    · have hq := h a (List.mem_cons_self a l) hp
      simp [List.filter_cons, hp, hq]
      omega
    · simp only [List.filter_cons]
      rw [Bool.not_eq_true] at hp
      simp only [hp, cond_false]
      by_cases hq : q a = true
      · simp [hq]
        omega
      · rw [Bool.not_eq_true] at hq
        simp [hq]
        exact ih'

theorem gas_addSet_lt {D temp : List Nat} {x : Nat} (hxD : x ∈ D) (hx : x ∉ temp) :
    gasOf D (addSet temp x) < gasOf D temp := by
  rw [addSet_of_not_mem hx]
  induction D with
  | nil => cases hxD
  | cons a D ih =>
    have hmono : ∀ y ∈ D, (fun z => decide (z ∉ temp ++ [x])) y = true →
        (fun z => decide (z ∉ temp)) y = true := by
      intro y _ hy
      simp only [decide_eq_true_eq, List.mem_append] at hy ⊢
      exact fun hmem => hy (Or.inl hmem)
    rcases List.mem_cons.mp hxD with rfl | hxD'
    · have h1 : (decide (x ∉ temp ++ [x])) = false := by
        simp
      have h2 : (decide (x ∉ temp)) = true := by
        simp [hx]
      have := length_filter_mono (l := D) hmono
      simp only [gasOf, List.filter_cons, h1, h2]
      simp only [Bool.false_eq_true, if_false, if_true, List.length_cons]
      omega
    · have := ih hxD'
      simp only [gasOf, List.filter_cons] at this ⊢
      by_cases ha : a ∈ temp ++ [x]
      · have h1 : (decide (a ∉ temp ++ [x])) = false := by simp [ha]
        by_cases ha2 : a ∈ temp
        · have h2 : (decide (a ∉ temp)) = false := by simp [ha2]
          simpa [h1, h2] using this
        · have h2 : (decide (a ∉ temp)) = true := by simp [ha2]
          simp only [h1, h2, Bool.false_eq_true, if_false, if_true, List.length_cons]
          omega
      · have h1 : (decide (a ∉ temp ++ [x])) = true := by simp_all
        have ha2 : a ∉ temp := fun hmem => ha (List.mem_append.mpr (Or.inl hmem))
        have h2 : (decide (a ∉ temp)) = true := by simp [ha2]
        simp only [h1, h2, if_true, List.length_cons]
        omega

theorem sortInv_init (strong : Nat → List Nat) : SortInv strong initSortState := by
  refine ⟨List.nodup_nil, ?_, SortedOK.nil⟩
  intro x
  simp [initSortState]

theorem sortInv_of_eq {strong : Nat → List Nat} {s s' : SortState}
    (h1 : s'.sorted = s.sorted) (h2 : s'.perm = s.perm) (h : SortInv strong s) :
    SortInv strong s' := by
  rw [SortInv, h1, h2]
  exact h

theorem stepOk_refl (strong : Nat → List Nat) (s : SortState) : StepOk strong s s :=
  ⟨rfl, fun _ h => h, ⟨[], by simp⟩, fun x h => Or.inl h, fun h => h⟩

theorem stepOk_trans {strong : Nat → List Nat} {s s' s'' : SortState}
    (h1 : StepOk strong s s') (h2 : StepOk strong s' s'') : StepOk strong s s'' := by
  obtain ⟨ht1, hp1, ⟨t1, hs1⟩, hn1, hi1⟩ := h1
  obtain ⟨ht2, hp2, ⟨t2, hs2⟩, hn2, hi2⟩ := h2
  refine ⟨ht2.trans ht1, fun x hx => hp2 x (hp1 x hx), ⟨t1 ++ t2, by rw [hs2, hs1, List.append_assoc]⟩, ?_, fun h => hi2 (hi1 h)⟩
  intro x hx
  rcases hn2 x hx with hx' | hx'
  · exact hn1 x hx'
  · rw [ht1] at hx'
    exact Or.inr hx'

/-- The strong-edge loop (and the identical top-level loop) below the fuel
bound: it never reports fuel exhaustion; on success it is a `StepOk` step
after which every listed node is done. -/
theorem runStrong_post {strong : Nat → List Nat} {D : List Nat} {F : Nat}
    {visitF : Nat → SortState → SortState × Option VErr}
    (hVF : VisitPost strong D F visitF) :
    ∀ ds s, (∀ d ∈ ds, d ∈ D) → gasOf D s.temp < F →
      (runStrong visitF ds s).2 ≠ some VErr.fuel ∧
      ((runStrong visitF ds s).2 = none →
        StepOk strong s (runStrong visitF ds s).1 ∧
        ∀ d ∈ ds, d ∈ (runStrong visitF ds s).1.perm) := by
  intro ds
  induction ds with
  | nil =>
    intro s _ _
    refine ⟨by simp [runStrong], fun _ => ⟨stepOk_refl strong s, by simp⟩⟩
  | cons d ds ih =>
    intro s hds hgas
    have hd : d ∈ D := hds d (List.mem_cons_self d ds)
    have hds' : ∀ x ∈ ds, x ∈ D := fun x hx => hds x (List.mem_cons_of_mem d hx)
    obtain ⟨hfuel, hok⟩ := hVF d s hd hgas
    rcases hv : visitF d s with ⟨s', e⟩
    rw [hv] at hfuel hok
    rcases e with _ | e
    · obtain ⟨hstep, hmem⟩ := hok rfl
      have htemp : s'.temp = s.temp := hstep.1
      have hgas' : gasOf D s'.temp < F := by rw [htemp]; exact hgas
      obtain ⟨ihfuel, ihok⟩ := ih s' hds' hgas'
      have hrun : runStrong visitF (d :: ds) s = runStrong visitF ds s' := by
        simp only [runStrong, hv]
      rw [hrun]
      refine ⟨ihfuel, fun hnone => ?_⟩
      obtain ⟨ihstep, ihmem⟩ := ihok hnone
      refine ⟨stepOk_trans hstep ihstep, fun x hx => ?_⟩
      rcases List.mem_cons.mp hx with rfl | hx'
      · exact ihstep.2.1 x hmem
      · exact ihmem x hx'
    · have hrun : runStrong visitF (d :: ds) s = (s', some e) := by
        simp only [runStrong, hv]
      rw [hrun]
      exact ⟨hfuel, (by intro h; cases h)⟩

/-- The weak-edge loop below the fuel bound never fails at all: cycle errors
from attempted visits are caught and rolled back (the forward-declaration set
aside), and fuel exhaustion cannot occur.  The loop is one `StepOk` step. -/
theorem runWeak_post {strong : Nat → List Nat} {D : List Nat} {F : Nat}
    {visitF : Nat → SortState → SortState × Option VErr}
    (hVF : VisitPost strong D F visitF) :
    ∀ ds s, (∀ d ∈ ds, d ∈ D) → gasOf D s.temp < F →
      (runWeak visitF ds s).2 = none ∧
      StepOk strong s (runWeak visitF ds s).1 := by
  intro ds
  induction ds with
  | nil =>
    intro s _ _
    exact ⟨by simp [runWeak], stepOk_refl strong s⟩
  | cons d ds ih =>
    intro s hds hgas
    have hd : d ∈ D := hds d (List.mem_cons_self d ds)
    have hds' : ∀ x ∈ ds, x ∈ D := fun x hx => hds x (List.mem_cons_of_mem d hx)
    obtain ⟨hfuel, hok⟩ := hVF d s hd hgas
    rcases hv : visitF d s with ⟨s', e⟩
    rw [hv] at hfuel hok
    rcases e with _ | e
    · obtain ⟨hstep, _⟩ := hok rfl
      have hgas' : gasOf D s'.temp < F := by rw [hstep.1]; exact hgas
      obtain ⟨ihnone, ihstep⟩ := ih s' hds' hgas'
      have hrun : runWeak visitF (d :: ds) s = runWeak visitF ds s' := by
        simp only [runWeak, hv]
      rw [hrun]
      exact ⟨ihnone, stepOk_trans hstep ihstep⟩
    · rcases e with _ | _
      · set sR : SortState :=
          { sorted := s.sorted, temp := s.temp, perm := s.perm, fwd := addSet s'.fwd d } with hsR
        have hgas' : gasOf D sR.temp < F := hgas
        obtain ⟨ihnone, ihstep⟩ := ih sR hds' hgas'
        have hrun : runWeak visitF (d :: ds) s = runWeak visitF ds sR := by
          simp only [runWeak, hv]
        rw [hrun]
        have hstepR : StepOk strong s sR :=
          ⟨rfl, fun x hx => hx, ⟨[], by simp⟩, fun x hx => Or.inl hx,
            fun h => sortInv_of_eq rfl rfl h⟩
        exact ⟨ihnone, stepOk_trans hstepR ihstep⟩
      · exact absurd rfl hfuel

/-- The main induction: below the fuel bound, `visit` satisfies `VisitPost`
— it never exhausts fuel and on success performs one invariant-preserving
`StepOk` step that marks its argument done.  The closure hypotheses say that
every edge target is again a candidate node. -/
theorem visit_post {strong weak : Nat → List Nat} {D : List Nat}
    (HS : ∀ n d, d ∈ strong n → d ∈ D) (HW : ∀ n d, d ∈ weak n → d ∈ D) :
    ∀ fuel, VisitPost strong D fuel (visit strong weak fuel) := by
  intro fuel
  induction fuel with
  | zero =>
    intro node s _ hgas
    exact absurd hgas (Nat.not_lt_zero _)
  | succ fuel ih =>
    intro node s hnode hgas
    by_cases htemp : node ∈ s.temp
    · have hv : visit strong weak (fuel + 1) node s = (s, some VErr.cycle) := by
        simp only [visit, if_pos htemp]
      rw [hv]
      exact ⟨(by intro h; cases h), (by intro h; cases h)⟩
    · by_cases hperm : node ∈ s.perm
      · have hv : visit strong weak (fuel + 1) node s = (s, none) := by
          simp only [visit, if_neg htemp, if_pos hperm]
        rw [hv]
        exact ⟨(by intro h; cases h), fun _ => ⟨stepOk_refl strong s, hperm⟩⟩
      · set s1 : SortState := { s with temp := addSet s.temp node } with hs1
        have hgas1 : gasOf D s1.temp < fuel := by
          have hlt : gasOf D s1.temp < gasOf D s.temp := gas_addSet_lt hnode htemp
          omega
        have hSdeps : ∀ d ∈ strong node, d ∈ D := fun d hd => HS node d hd
        have hWdeps : ∀ d ∈ weak node, d ∈ D := fun d hd => HW node d hd
        obtain ⟨sfuel, sok⟩ := runStrong_post ih (strong node) s1 hSdeps hgas1
        rcases hrs : runStrong (visit strong weak fuel) (strong node) s1 with ⟨s2, e2⟩
        rw [hrs] at sfuel sok
        rcases e2 with _ | e2
        · obtain ⟨hstep12, hdeps2⟩ := sok rfl
          have hgas2 : gasOf D s2.temp < fuel := by rw [hstep12.1]; exact hgas1
          obtain ⟨wnone, hstep23⟩ := runWeak_post ih (weak node) s2 hWdeps hgas2
          rcases hrw : runWeak (visit strong weak fuel) (weak node) s2 with ⟨s3, e3⟩
          rw [hrw] at wnone hstep23
          subst wnone
          set sF : SortState :=
            { sorted := s3.sorted ++ [node], temp := s3.temp.erase node,
              perm := addSet s3.perm node, fwd := s3.fwd } with hsF
          have hv : visit strong weak (fuel + 1) node s = (sF, none) := by
            simp only [visit, if_neg htemp, if_pos hperm, if_neg hperm, hrs, hrw]
          rw [hv]
          have hstep13 : StepOk strong s1 s3 := stepOk_trans hstep12 hstep23
          have htemp3 : s3.temp = s.temp ++ [node] := by
            rw [hstep13.1, hs1]
            exact addSet_of_not_mem htemp
          refine ⟨(by intro h; cases h), fun _ => ⟨?_, mem_addSet_self _ _⟩⟩
          have hnode_nperm3 : node ∉ s3.perm := by
            intro hmem
            rcases hstep13.2.2.2.1 node hmem with h | h
            · exact hperm h
            · rw [hs1] at h
              exact h (mem_addSet_self _ _)
          refine ⟨?_, ?_, ?_, ?_, ?_⟩
          · show sF.temp = s.temp
            rw [hsF]
            show s3.temp.erase node = s.temp
            rw [htemp3]
            exact erase_append_self htemp
          · intro x hx
            exact mem_addSet_of_mem node (hstep13.2.1 x hx)
          · obtain ⟨t, ht⟩ := hstep13.2.2.1
            exact ⟨t ++ [node], by rw [hsF]; show s3.sorted ++ [node] = _; rw [ht, List.append_assoc]⟩
          · intro x hx
            rcases mem_addSet_iff.mp hx with hx' | rfl
            · rcases hstep13.2.2.2.1 x hx' with h | h
              · exact Or.inl h
              · rw [hs1] at h
                exact Or.inr (fun hmem => h (mem_addSet_of_mem node hmem))
            · exact Or.inr htemp
          · intro hinv
            have hinv3 : SortInv strong s3 := hstep13.2.2.2.2 (sortInv_of_eq rfl rfl hinv)
            obtain ⟨hnd3, hiff3, hord3⟩ := hinv3
            have hnode_nsorted3 : node ∉ s3.sorted := fun h => hnode_nperm3 ((hiff3 node).mpr h)
            refine ⟨?_, ?_, ?_⟩
            · show (s3.sorted ++ [node]).Nodup
              rw [List.nodup_append]
              exact ⟨hnd3, List.nodup_singleton node,
                fun a ha hb => by rw [List.mem_singleton] at hb; subst hb; exact hnode_nsorted3 ha⟩
            · intro x
              show x ∈ addSet s3.perm node ↔ x ∈ s3.sorted ++ [node]
              rw [mem_addSet_iff, List.mem_append, List.mem_singleton, hiff3 x]
            · show SortedOK strong (s3.sorted ++ [node])
              refine SortedOK.snoc hord3 ?_
              intro d hd
              have hd2 : d ∈ s2.perm := hdeps2 d hd
              have hd3 : d ∈ s3.perm := hstep23.2.1 d hd2
              exact (hiff3 d).mp hd3
        · have hv : visit strong weak (fuel + 1) node s = (s2, some e2) := by
            simp only [visit, if_neg htemp, if_pos hperm, if_neg hperm, hrs]
          rw [hv]
          exact ⟨sfuel, (by intro h; cases h)⟩

/-! ## Instantiating the invariants for the extracted dependency graph -/

theorem odLookup_mem_values {d : List (String × Nat)} {k : String} {r : Nat}
    (h : odLookup d k = some r) : r ∈ odValues d := by
  unfold odLookup at h
  rcases hf : d.find? (fun p => p.1 = k) with _ | p
  · rw [hf] at h
    cases h
  · rw [hf] at h
    simp only [Option.map] at h
    injection h with h
    have hp : p ∈ d := List.mem_of_find?_eq_some hf
    rw [← h]
    exact List.mem_map.mpr ⟨p, hp, rfl⟩

theorem resolveMember_target {td : List (String × Nat)} {mt : String} {b : Bool} {r : Nat}
    (h : resolveMember td mt = some (b, r)) : r ∈ odValues td := by
  simp only [resolveMember] at h
  rcases h1 : odLookup td (qualStrip (pyStrip mt)) with _ | r1
  · rw [h1] at h
    rcases h2 : odLookup td (pyStrip (stripPtrChars (qualStrip (pyStrip mt)))) with _ | r2
    · rw [h2] at h
      cases h
    · rw [h2] at h
      simp only [Option.some.injEq, Prod.mk.injEq] at h
      rw [← h.2]
      exact odLookup_mem_values h2
  · rw [h1] at h
    simp only [Option.some.injEq, Prod.mk.injEq] at h
    rw [← h.2]
    exact odLookup_mem_values h1

theorem strongDepsOf_subset {heap : List CDecl} {td : List (String × Nat)} {r d : Nat}
    (h : d ∈ strongDepsOf heap td r) : d ∈ odValues td := by
  unfold strongDepsOf at h
  obtain ⟨m, _, hm⟩ := List.mem_filterMap.mp h
  rcases hres : resolveMember td m.type with _ | ⟨b, r'⟩
  · rw [hres] at hm
    cases hm
  · rw [hres] at hm
    rcases b with _ | _
    · cases hm
    · simp only [Option.some.injEq] at hm
      rw [← hm]
      exact resolveMember_target hres

theorem weakDepsOf_subset {heap : List CDecl} {td : List (String × Nat)} {r d : Nat}
    (h : d ∈ weakDepsOf heap td r) : d ∈ odValues td := by
  unfold weakDepsOf at h
  obtain ⟨m, _, hm⟩ := List.mem_filterMap.mp h
  rcases hres : resolveMember td m.type with _ | ⟨b, r'⟩
  · rw [hres] at hm
    cases hm
  · rw [hres] at hm
    rcases b with _ | _
    · simp only [Option.some.injEq] at hm
      rw [← hm]
      exact resolveMember_target hres
    · cases hm

theorem toSortListOf_subset {heap : List CDecl} {td : List (String × Nat)} {n : Nat}
    (h : n ∈ toSortListOf heap td) : n ∈ odValues td := by
  unfold toSortListOf at h
  obtain ⟨r, hr, hmem⟩ := List.mem_flatMap.mp h
  obtain ⟨m, _, hm⟩ := List.mem_filterMap.mp hmem
  rcases hres : resolveMember td m.type with _ | p
  · rw [hres] at hm
    cases hm
  · rw [hres] at hm
    simp only [Option.map] at hm
    injection hm with hm
    rw [← hm]
    exact hr

/-- A declaration with at least one strong edge was registered in
`types_to_sort_list`. -/
theorem mem_toSortList_of_strongDep {heap : List CDecl} {td : List (String × Nat)} {r d : Nat}
    (hr : r ∈ odValues td) (h : d ∈ strongDepsOf heap td r) : r ∈ toSortListOf heap td := by
  unfold strongDepsOf at h
  obtain ⟨m, hmmem, hm⟩ := List.mem_filterMap.mp h
  rcases hres : resolveMember td m.type with _ | ⟨b, r'⟩
  · rw [hres] at hm
    cases hm
  · unfold toSortListOf
    refine List.mem_flatMap.mpr ⟨r, hr, List.mem_filterMap.mpr ⟨m, hmmem, ?_⟩⟩
    rw [hres]
    simp

theorem odInsert_length_le {d : List (String × Nat)} {k : String} {v : Nat} :
    (odInsert d k v).length ≤ d.length + 1 := by
  unfold odInsert
  split
  · simp
  · simp

theorem typeDictOf_length_le (heap : List CDecl) (lst : List CElem) :
    (typeDictOf heap lst).length ≤ lst.length := by
  unfold typeDictOf
  suffices h : ∀ (d : List (String × Nat)),
      (lst.foldl
        (fun d e =>
          match e with
          | CElem.declRef r => odInsert d (pyStrip (heap.getD r default).name) r
          | _ => d) d).length ≤ d.length + lst.length by
    simpa using h []
  induction lst with
  | nil => intro d; simp
  | cons e lst ih =>
    intro d
    simp only [List.foldl_cons, List.length_cons]
    rcases e with r | r | _ | s
    · show (List.foldl _ (odInsert d (pyStrip (heap.getD r default).name) r) lst).length ≤
        d.length + (lst.length + 1)
      have h1 := ih (odInsert d (pyStrip (heap.getD r default).name) r)
      have h2 : (odInsert d (pyStrip (heap.getD r default).name) r).length ≤ d.length + 1 :=
        odInsert_length_le
      omega
    · show (List.foldl _ d lst).length ≤ d.length + (lst.length + 1)
      have := ih d
      omega
    · show (List.foldl _ d lst).length ≤ d.length + (lst.length + 1)
      have := ih d
      omega
    · show (List.foldl _ d lst).length ≤ d.length + (lst.length + 1)
      have := ih d
      omega

theorem gasOf_empty (D : List Nat) : gasOf D [] = D.length := by
  unfold gasOf
  have : ∀ x ∈ D, (fun z => decide (z ∉ ([] : List Nat))) x = true := by
    intro x _
    simp
  rw [List.filter_eq_self.mpr this]

/-- The fuel budget of `sortPhase` is sufficient: the sort never reports the
artificial fuel outcome, and on success the final state satisfies the
invariant and marks done every node of `types_to_sort_list`. -/
theorem sortPhase_post (heap : List CDecl) (lst : List CElem) :
    (sortPhase heap lst).2 ≠ some VErr.fuel ∧
    ((sortPhase heap lst).2 = none →
      SortInv (strongDepsOf heap (typeDictOf heap lst)) (sortPhase heap lst).1 ∧
      ∀ n ∈ toSortListOf heap (typeDictOf heap lst), n ∈ (sortPhase heap lst).1.perm) := by
  set td := typeDictOf heap lst with htd
  set D : List Nat := (odValues td).dedup with hD
  have HS : ∀ n d, d ∈ strongDepsOf heap td n → d ∈ D := by
    intro n d hd
    rw [hD]
    exact List.mem_dedup.mpr (strongDepsOf_subset hd)
  have HW : ∀ n d, d ∈ weakDepsOf heap td n → d ∈ D := by
    intro n d hd
    rw [hD]
    exact List.mem_dedup.mpr (weakDepsOf_subset hd)
  have hVP := visit_post HS HW (lst.length + 1)
  have hsub : ∀ n ∈ toSortListOf heap td, n ∈ D := by
    intro n hn
    rw [hD]
    exact List.mem_dedup.mpr (toSortListOf_subset hn)
  have hgas : gasOf D initSortState.temp < lst.length + 1 := by
    show gasOf D [] < lst.length + 1
    rw [gasOf_empty]
    have h1 : D.length ≤ (odValues td).length := (List.dedup_sublist _).length_le
    have h2 : (odValues td).length = td.length := List.length_map _ _
    have h3 : td.length ≤ lst.length := typeDictOf_length_le heap lst
    omega
  obtain ⟨hfuel, hok⟩ := runStrong_post hVP (toSortListOf heap td) initSortState hsub hgas
  refine ⟨hfuel, fun hnone => ?_⟩
  obtain ⟨hstep, hmem⟩ := hok hnone
  exact ⟨hstep.2.2.2.2 (sortInv_init _), hmem⟩

theorem sortedOK_indexOf_lt {strong : Nat → List Nat} {l : List Nat}
    (hord : SortedOK strong l) (hnd : l.Nodup) :
    ∀ n d, n ∈ l → d ∈ strong n → d ∈ l ∧ List.indexOf d l < List.indexOf n l := by
  induction hord with
  | nil =>
    intro n d hn _
    cases hn
  | snoc hord hdeps ih =>
    rename_i l m
    intro n d hn hd
    have hndl : l.Nodup := (List.nodup_append.mp hnd).1
    have hm : m ∉ l := by
      intro hmem
      have := (List.nodup_append.mp hnd).2.2
      exact this hmem (List.mem_singleton_self m)
    rcases List.mem_append.mp hn with hn' | hn'
    · obtain ⟨hdl, hlt⟩ := ih hndl n d hn' hd
      refine ⟨List.mem_append_left _ hdl, ?_⟩
      rw [List.indexOf_append_of_mem hdl, List.indexOf_append_of_mem hn']
      exact hlt
    · rw [List.mem_singleton] at hn'
      subst hn'
      have hdl : d ∈ l := hdeps d hd
      refine ⟨List.mem_append_left _ hdl, ?_⟩
      rw [List.indexOf_append_of_mem hdl, List.indexOf_append_of_not_mem hm]
      have h1 : List.indexOf d l < l.length := List.indexOf_lt_length.mpr hdl
      have h2 : List.indexOf n [n] = 0 := List.indexOf_cons_self n []
      omega

/-- On a successful sort, strong reachability goes strictly down the sorted
list — so no node strongly reaches itself. -/
theorem transGen_strongEdge_lt {heap : List CDecl} {lst : List CElem}
    (hnone : (sortPhase heap lst).2 = none) :
    ∀ a b, Relation.TransGen (strongEdge heap (typeDictOf heap lst)) a b →
      a ∈ (sortPhase heap lst).1.sorted ∧ b ∈ (sortPhase heap lst).1.sorted ∧
      List.indexOf b (sortPhase heap lst).1.sorted <
        List.indexOf a (sortPhase heap lst).1.sorted := by
  obtain ⟨_, hok⟩ := sortPhase_post heap lst
  obtain ⟨⟨hnd, hiff, hord⟩, hmem⟩ := hok hnone
  have hstep : ∀ x y, strongEdge heap (typeDictOf heap lst) x y →
      x ∈ (sortPhase heap lst).1.sorted ∧ y ∈ (sortPhase heap lst).1.sorted ∧
      List.indexOf y (sortPhase heap lst).1.sorted <
        List.indexOf x (sortPhase heap lst).1.sorted := by
    intro x y ⟨hx, hy⟩
    have hxs : x ∈ (sortPhase heap lst).1.sorted :=
      (hiff x).mp (hmem x (mem_toSortList_of_strongDep hx hy))
    obtain ⟨hys, hlt⟩ := sortedOK_indexOf_lt hord hnd x y hxs hy
    exact ⟨hxs, hys, hlt⟩
  intro a b htg
  induction htg with
  | single h => exact hstep _ _ h
  | tail _ h ih =>
    obtain ⟨has, hbs, hab⟩ := ih
    obtain ⟨_, hcs, hbc⟩ := hstep _ _ h
    exact ⟨has, hcs, by omega⟩

/-- A container whose strong edges form a cycle makes the sort fail with the
cycle error (never with fuel exhaustion, never successfully). -/
theorem sortPhase_cycle {heap : List CDecl} {lst : List CElem}
    (hcy : StrongCycle heap lst) : (sortPhase heap lst).2 = some VErr.cycle := by
  obtain ⟨n, htg⟩ := hcy
  obtain ⟨hfuel, _⟩ := sortPhase_post heap lst
  rcases he : (sortPhase heap lst).2 with _ | e
  · obtain ⟨_, _, hlt⟩ := transGen_strongEdge_lt he n n htg
    omega
  · rcases e with _ | _
    · rfl
    · exact absurd he hfuel

theorem orderedInlineStr_out (heap : List CDecl) (σ : CStore) (self : Nat) (idt : Idt) :
    (orderedInlineStr heap σ self idt).2 = orderedRenderOut heap (σ.getD self []) idt := by
  have hshape : (orderedInlineStr heap σ self idt).2 =
      (match orderedSynthList heap (σ.getD self []) with
        | Except.ok nl => ((σ ++ [σ.getD self []]).set σ.length nl,
            Except.ok (containerInlineStr heap idt nl))
        | Except.error m => ((σ ++ [σ.getD self []] : CStore), Except.error m)).2 := rfl
  rw [hshape]
  rcases h : orderedSynthList heap (σ.getD self []) with m | newList
  · rw [List.getD_eq_getElem?_getD] at h
    simp [orderedRenderOut, h]
  · rw [List.getD_eq_getElem?_getD] at h
    simp [orderedRenderOut, h]

/-- Shared frame lemma: `inline_str` only ever writes through the fresh
reference allocated for `self_copy`, so the caller's slot is untouched,
whether the render succeeds or raises. -/
theorem orderedInlineStr_frame (heap : List CDecl) (σ : CStore) (self : Nat) (idt : Idt)
    (h : self < σ.length) :
    (orderedInlineStr heap σ self idt).1.get? self = σ.get? self := by
  have hne : σ.length ≠ self := Nat.ne_of_gt h
  have hshape : (orderedInlineStr heap σ self idt).1 =
      (match orderedSynthList heap (σ.getD self []) with
        | Except.ok nl => ((σ ++ [σ.getD self []]).set σ.length nl,
            Except.ok (containerInlineStr heap idt nl))
        | Except.error m => ((σ ++ [σ.getD self []] : CStore), Except.error m)).1 := rfl
  rw [hshape]
  rcases hs : orderedSynthList heap (σ.getD self []) with m | newList
  · exact List.get?_append h
  · show ((σ ++ [σ.getD self []]).set σ.length newList).get? self = σ.get? self
    rw [List.get?_set_ne _ _ hne]
    exact List.get?_append h

theorem orderedFreestandingStr_frame (heap : List CDecl) (σ : CStore) (self : Nat) (idt : Idt)
    (h : self < σ.length) :
    (orderedFreestandingStr heap σ self idt).1.get? self = σ.get? self := by
  unfold orderedFreestandingStr
  have := orderedInlineStr_frame heap σ self idt h
  rcases hio : orderedInlineStr heap σ self idt with ⟨σ', r⟩
  rw [hio] at this
  rcases r with m | t
  · exact this
  · exact this

theorem getD_congr_of_get? {σ σ' : CStore} {n : Nat}
    (h : σ'.get? n = σ.get? n) : σ'.getD n [] = σ.getD n [] := by
  rw [List.get?_eq_getElem?, List.get?_eq_getElem?] at h
  rw [List.getD_eq_getElem?_getD, List.getD_eq_getElem?_getD, h]

/-- C1, counterexample to the claim as stated: a mutual-by-value pair does
make the render fail, but the raised `ValueError` carries a fixed message
(C.py line 359) that identifies no declaration: the pair named `zzz1`/`zzz2`
and the pair named `qqq1`/`qqq2` produce the *same* error value, whose text
contains neither a `z` nor a `q`, so the error cannot identify the implicated
declarations `{zzz1, zzz2}` (or `{qqq1, qqq2}`). -/
theorem claim_C1_counterexample :
    (orderedInlineStr heapMutualValue [lstMutualValue] 0 idtDefault).2 =
      Except.error cyclicMsg ∧
    (orderedInlineStr heapMutualValueQ [lstMutualValue] 0 idtDefault).2 =
      Except.error cyclicMsg ∧
    cyclicMsg.data.contains 'z' = false ∧
    cyclicMsg.data.contains 'q' = false ∧
    declZ1.name.data.contains 'z' = true ∧
    declZ2.name.data.contains 'z' = true := by
  refine ⟨?_, ?_, ?_, ?_, ?_, ?_⟩ <;> rfl

/-- C1 (amended): for every container whose strong (by-value) dependency
edges alone form a cycle, rendering the dependency-ordered type container
fails with the cyclic-dependency `ValueError` — whose message is the fixed
string `cyclicMsg`, carrying no declaration names — for both entry points;
the render terminates and emits no partial output: the caller's element list
is untouched. -/
theorem claim_C1 (heap : List CDecl) (σ : CStore) (self : Nat) (idt : Idt)
    (hcy : StrongCycle heap (σ.getD self [])) :
    (orderedInlineStr heap σ self idt).2 = Except.error cyclicMsg ∧
    (orderedFreestandingStr heap σ self idt).2 = Except.error cyclicMsg ∧
    (self < σ.length → (orderedInlineStr heap σ self idt).1.get? self = σ.get? self) := by
  have hcycle : (sortPhase heap (σ.getD self [])).2 = some VErr.cycle := sortPhase_cycle hcy
  have hsynth : orderedSynthList heap (σ.getD self []) = Except.error cyclicMsg := by
    unfold orderedSynthList
    rcases hsp : sortPhase heap (σ.getD self []) with ⟨st, e⟩
    rw [hsp] at hcycle
    simp only at hcycle
    rw [hcycle]
  have hinline : (orderedInlineStr heap σ self idt).2 = Except.error cyclicMsg := by
    rw [orderedInlineStr_out, orderedRenderOut, hsynth]
  refine ⟨hinline, ?_, fun h => orderedInlineStr_frame heap σ self idt h⟩
  unfold orderedFreestandingStr
  rcases hio : orderedInlineStr heap σ self idt with ⟨σ', r⟩
  rw [hio] at hinline
  simp only at hinline
  rw [hinline]

/-- Witness for C1 (amended): the mutual-by-value pair `zzz1`/`zzz2` has a
strong-edge cycle, and the theorem applies to it. -/
theorem claim_C1_witness :
    (orderedInlineStr heapMutualValue [lstMutualValue] 0 idtDefault).2 =
      Except.error cyclicMsg :=
  (claim_C1 heapMutualValue [lstMutualValue] 0 idtDefault
    ⟨0, Relation.TransGen.head
      (show strongEdge heapMutualValue
          (typeDictOf heapMutualValue (([lstMutualValue] : CStore).getD 0 [])) 0 1 from
        ⟨by decide, by decide⟩)
      (Relation.TransGen.single
        (show strongEdge heapMutualValue
            (typeDictOf heapMutualValue (([lstMutualValue] : CStore).getD 0 [])) 1 0 from
          ⟨by decide, by decide⟩))⟩).1

/-! ## Claim C5 -/

/-- C5: rendering a dependency-ordered type container never mutates the
caller's container.  After `inline_str` or the freestanding render returns —
including when it raises the cyclic-dependency error — the element list
stored at the caller's reference is exactly what it was before the call: the
reordering happens on the private copy allocated by `copy.copy(self)`. -/
theorem claim_C5 (heap : List CDecl) (σ : CStore) (self : Nat) (idt : Idt)
    (h : self < σ.length) :
    (orderedInlineStr heap σ self idt).1.get? self = σ.get? self ∧
    (orderedFreestandingStr heap σ self idt).1.get? self = σ.get? self :=
  ⟨orderedInlineStr_frame heap σ self idt h, orderedFreestandingStr_frame heap σ self idt h⟩

/-- Witness for C5 at a concrete container (the mutual pointer pair). -/
theorem claim_C5_witness :
    (orderedInlineStr heapMutualPtr [lstMutualPtr] 0 idtDefault).1.get? 0 =
      ([lstMutualPtr] : CStore).get? 0 ∧
    (orderedFreestandingStr heapMutualPtr [lstMutualPtr] 0 idtDefault).1.get? 0 =
      ([lstMutualPtr] : CStore).get? 0 :=
  claim_C5 heapMutualPtr [lstMutualPtr] 0 idtDefault (by decide)

/-! ## Claim C8 -/

theorem orderedFreestandingStr_out (heap : List CDecl) (σ : CStore) (self : Nat) (idt : Idt) :
    (orderedFreestandingStr heap σ self idt).2 =
      Except.map (fun t => stripStartingBlankLines (nodeBaseFreestanding t idt))
        (orderedInlineStr heap σ self idt).2 := by
  unfold orderedFreestandingStr
  rcases hio : orderedInlineStr heap σ self idt with ⟨σ', r⟩
  rcases r with m | t
  · rfl
  · rfl

/-- C8: rendering an unmutated container twice yields identical text.  The
second render of the dependency-ordered container — run on the store as the
first render left it — recomputes the sort and forward declarations from the
same element list and produces the same output, for both entry points. -/
theorem claim_C8 (heap : List CDecl) (σ : CStore) (self : Nat) (idt : Idt)
    (h : self < σ.length) :
    (orderedInlineStr heap (orderedInlineStr heap σ self idt).1 self idt).2 =
      (orderedInlineStr heap σ self idt).2 ∧
    (orderedFreestandingStr heap (orderedFreestandingStr heap σ self idt).1 self idt).2 =
      (orderedFreestandingStr heap σ self idt).2 := by
  constructor
  · have hgd : ((orderedInlineStr heap σ self idt).1).getD self [] = σ.getD self [] :=
      getD_congr_of_get? (orderedInlineStr_frame heap σ self idt h)
    rw [orderedInlineStr_out, orderedInlineStr_out, hgd]
  · have hgd : ((orderedFreestandingStr heap σ self idt).1).getD self [] = σ.getD self [] :=
      getD_congr_of_get? (orderedFreestandingStr_frame heap σ self idt h)
    rw [orderedFreestandingStr_out, orderedFreestandingStr_out,
      orderedInlineStr_out, orderedInlineStr_out, hgd]

/-- Witness for C8 at a concrete container (the mutual pointer pair). -/
theorem claim_C8_witness :
    (orderedInlineStr heapMutualPtr
        (orderedInlineStr heapMutualPtr [lstMutualPtr] 0 idtDefault).1 0 idtDefault).2 =
      (orderedInlineStr heapMutualPtr [lstMutualPtr] 0 idtDefault).2 ∧
    (orderedFreestandingStr heapMutualPtr
        (orderedFreestandingStr heapMutualPtr [lstMutualPtr] 0 idtDefault).1 0 idtDefault).2 =
      (orderedFreestandingStr heapMutualPtr [lstMutualPtr] 0 idtDefault).2 :=
  claim_C8 heapMutualPtr [lstMutualPtr] 0 idtDefault (by decide)

/-- C2: evaluation of the code (and of the specified full-rollback variant)
at the failing input.  The run succeeds either way and produces the same
sorted order `A, D, C, B`, but the code's forward-declaration set is
`{D, B}` (reference 3 is `D`) while the specified rollback leaves `{B}`:
the sort-state mutation of `forward_decl_type_set` made during the
rolled-back attempt is *not* undone, and the synthesized output carries a
forward declaration for `D` even though `D`'s full definition already
precedes every use. -/
theorem claim_C2_theorem :
    (sortPhase heapRollback lstRollback).2 = none ∧
    (sortPhase heapRollback lstRollback).1.sorted = [0, 3, 2, 1] ∧
    (sortPhase heapRollback lstRollback).1.fwd = [3, 1] ∧
    (sortPhaseSpec heapRollback lstRollback).2 = none ∧
    (sortPhaseSpec heapRollback lstRollback).1.sorted = [0, 3, 2, 1] ∧
    (sortPhaseSpec heapRollback lstRollback).1.fwd = [1] ∧
    orderedSynthList heapRollback lstRollback =
      Except.ok [CElem.fwdRef 3, CElem.fwdRef 1, CElem.declRef 0, CElem.declRef 3,
        CElem.declRef 2, CElem.declRef 1, CElem.newLine] := by
  refine ⟨?_, ?_, ?_, ?_, ?_, ?_, ?_⟩ <;> rfl

/-! ## Claim C6 -/

/-- When no declaration has any dependency edge, nothing is registered for
sorting. -/
theorem toSortListOf_eq_nil {heap : List CDecl} {td : List (String × Nat)}
    (hfree : ∀ r ∈ odValues td,
      strongDepsOf heap td r = [] ∧ weakDepsOf heap td r = []) :
    toSortListOf heap td = [] := by
  unfold toSortListOf
  rw [List.flatMap_eq_nil_iff]
  intro r hr
  rw [List.filterMap_eq_nil_iff]
  intro m hm
  rcases hres : resolveMember td m.type with _ | ⟨b, t⟩
  · rfl
  · exfalso
    rcases b with _ | _
    · have hmem : t ∈ weakDepsOf heap td r := by
        unfold weakDepsOf
        refine List.mem_filterMap.mpr ⟨m, hm, ?_⟩
        rw [hres]
      rw [(hfree r hr).2] at hmem
      cases hmem
    · have hmem : t ∈ strongDepsOf heap td r := by
        unfold strongDepsOf
        refine List.mem_filterMap.mpr ⟨m, hm, ?_⟩
        rw [hres]
      rw [(hfree r hr).1] at hmem
      cases hmem

/-- C6: on edge-free input the ordering algorithm is a no-op — no member
type of any collected declaration resolves (exactly or after
pointer-character stripping) to another declaration's name, so nothing is
reordered and no forward declaration is emitted.  The synthesized element
order is the original order, preceded only by the blank-line separator node
that step 4 always inserts; in particular the elements' relative order
equals the input order. -/
theorem claim_C6 (heap : List CDecl) (lst : List CElem)
    (hfree : ∀ r ∈ odValues (typeDictOf heap lst),
      strongDepsOf heap (typeDictOf heap lst) r = [] ∧
      weakDepsOf heap (typeDictOf heap lst) r = []) :
    orderedSynthList heap lst = Except.ok (CElem.newLine :: lst) ∧
    ∀ (σ : CStore) (self : Nat) (idt : Idt), σ.getD self [] = lst →
      (orderedInlineStr heap σ self idt).2 =
        Except.ok (containerInlineStr heap idt (CElem.newLine :: lst)) := by
  have hts : toSortListOf heap (typeDictOf heap lst) = [] := toSortListOf_eq_nil hfree
  have hsp : sortPhase heap lst = (initSortState, none) := by
    show runStrong
      (visit (strongDepsOf heap (typeDictOf heap lst)) (weakDepsOf heap (typeDictOf heap lst))
        (lst.length + 1))
      (toSortListOf heap (typeDictOf heap lst)) initSortState = (initSortState, none)
    rw [hts]
    rfl
  have hsynth : orderedSynthList heap lst = Except.ok (CElem.newLine :: lst) := by
    unfold orderedSynthList
    rw [hsp]
    have hfilter : lst.filter
        (fun e =>
          match e with
          | CElem.declRef r => !decide (r ∈ ([] : List Nat))
          | _ => true) = lst := by
      rw [List.filter_eq_self]
      intro e _
      rcases e with r | r | _ | s
      · simp
      · rfl
      · rfl
      · rfl
    simp only [initSortState, List.map_nil, List.nil_append]
    rw [hfilter]
    rfl
  refine ⟨hsynth, fun σ self idt hgd => ?_⟩
  rw [orderedInlineStr_out, orderedRenderOut, hgd, hsynth]

/-- Witness for C6 at the concrete edge-free container. -/
theorem claim_C6_witness :
    orderedSynthList heapEdgeFree lstEdgeFree =
      Except.ok (CElem.newLine :: lstEdgeFree) :=
  (claim_C6 heapEdgeFree lstEdgeFree (by decide)).1

/-! ## Claim C3 -/

/-- C3: a mutual weak-edge (pointer) cycle — `A` has a pointer member of
type `B` and `B` a pointer member of type `A`, with no strong edges —
renders with no error; the synthesized order is exactly one forward
declaration (here for `A`, the declaration visited first, whose weak edge
fails follow-through) followed by both full definitions, each exactly once,
in the dependency-respecting order `B`, `A`, plus the separator node. -/
theorem claim_C3 (heap : List CDecl) (ra rb : Nat) (lst : List CElem)
    (hne : ra ≠ rb)
    (hlst : lst = [CElem.declRef ra, CElem.declRef rb])
    (hsa : strongDepsOf heap (typeDictOf heap lst) ra = [])
    (hsb : strongDepsOf heap (typeDictOf heap lst) rb = [])
    (hwa : weakDepsOf heap (typeDictOf heap lst) ra = [rb])
    (hwb : weakDepsOf heap (typeDictOf heap lst) rb = [ra])
    (hts : toSortListOf heap (typeDictOf heap lst) = [ra, rb]) :
    orderedSynthList heap lst =
      Except.ok [CElem.fwdRef ra, CElem.declRef rb, CElem.declRef ra, CElem.newLine] ∧
    ∀ (σ : CStore) (self : Nat) (idt : Idt), σ.getD self [] = lst →
      (orderedInlineStr heap σ self idt).2 =
        Except.ok (containerInlineStr heap idt
          [CElem.fwdRef ra, CElem.declRef rb, CElem.declRef ra, CElem.newLine]) := by
  subst hlst
  have hba : rb ≠ ra := Ne.symm hne
  have hsp : sortPhase heap [CElem.declRef ra, CElem.declRef rb] =
      ({ sorted := [rb, ra], temp := [], perm := [rb, ra], fwd := [ra] }, none) := by
    show runStrong
      (visit
        (strongDepsOf heap (typeDictOf heap [CElem.declRef ra, CElem.declRef rb]))
        (weakDepsOf heap (typeDictOf heap [CElem.declRef ra, CElem.declRef rb]))
        ([CElem.declRef ra, CElem.declRef rb].length + 1))
      (toSortListOf heap (typeDictOf heap [CElem.declRef ra, CElem.declRef rb]))
      initSortState = _
    rw [hts]
    have hlen : ([CElem.declRef ra, CElem.declRef rb] : List CElem).length + 1 = 3 := rfl
    rw [hlen]
    simp only [initSortState, runStrong, visit, hsa, hsb, hwa, hwb, runWeak, addSet,
      List.mem_cons, List.mem_singleton, List.not_mem_nil, or_false, false_or, if_false,
      if_true, hne, hba, List.erase_cons_head, List.erase_cons, List.nil_append,
      List.cons_append]
    simp [hne, hba, List.erase_cons]
  have hsynth : orderedSynthList heap [CElem.declRef ra, CElem.declRef rb] =
      Except.ok [CElem.fwdRef ra, CElem.declRef rb, CElem.declRef ra, CElem.newLine] := by
    unfold orderedSynthList
    rw [hsp]
    simp [hne, hba]
  refine ⟨hsynth, fun σ self idt hgd => ?_⟩
  rw [orderedInlineStr_out, orderedRenderOut, hgd, hsynth]

/-- Witness for C3: the concrete mutual pointer pair `A`/`B`. -/
theorem claim_C3_witness :
    orderedSynthList heapMutualPtr lstMutualPtr =
      Except.ok [CElem.fwdRef 0, CElem.declRef 1, CElem.declRef 0, CElem.newLine] :=
  (claim_C3 heapMutualPtr 0 1 lstMutualPtr (by decide) rfl rfl rfl rfl rfl rfl).1

/-- C7, counterexample to the claim as stated: the suppress-if-empty rule is
not a global invariant over every node kind.  An empty `Expr` statement has
an empty inline rendering, yet its freestanding rendering is `"\n;"` — not
the empty string the rule demands (and not newline+indent+inline either). -/
theorem claim_C7_counterexample :
    exprInline [] idtDefault = "" ∧
    exprFreestanding [] idtDefault = "\n;" ∧
    exprFreestanding [] idtDefault ≠
      (if exprInline [] idtDefault = "" then ""
       else "\n" ++ idtString idtDefault ++ exprInline [] idtDefault) := by
  refine ⟨rfl, rfl, ?_⟩
  decide

/-- C7 (amended): the newline+indentation+inline rule with the
suppress-if-empty exception holds for the *default* freestanding rendering
of the node base class, and hence for every node kind that inherits it
unchanged (token lists in particular); node kinds that override
`freestanding_str` — expression statements, compound type definitions,
containers — are not bound by it. -/
theorem claim_C7 (inl : String) (tokens : List String) (idt : Idt) :
    nodeBaseFreestanding inl idt =
      (if inl = "" then "" else "\n" ++ idtString idt ++ inl) ∧
    tokenListFreestanding tokens idt =
      (if tokenListInline tokens = "" then ""
       else "\n" ++ idtString idt ++ tokenListInline tokens) :=
  ⟨rfl, rfl⟩

/-- C9, counterexample to the claim as stated: a container declared with
classinfo `(Expr,)` and factory `TokenList` (a legal combination — the
factory need not be one of the classinfo classes) accepts the raw string
`"x"`: the factory returns a `TokenList` node, the wrapper only re-checks
`NodeABC`-ness, and the stored element does *not* satisfy the container's
declared type constraint. -/
theorem claim_C9_counterexample :
    containerAppend ⟨[PyClass.expr], []⟩ tokenListFactory [PyVal.raw "x"] =
      Except.ok ⟨[PyClass.expr], [PyVal.node PyClass.tokenList "x"]⟩ ∧
    isInstance (PyVal.node PyClass.tokenList "x") [PyClass.expr] = false := by
  exact ⟨rfl, rfl⟩

/-- C9 (amended): for every container mutation (append, single-value insert,
item assignment, construction from an initial list), a value that does not
already satisfy the container's declared type constraint is passed through
the factory, whose output is re-checked against the base `NodeABC` interface
only: a non-`Node` factory output fails the mutating call itself with
`InvalidElement` (never deferred to render time, and the coercion of the
added list completes before any mutation); a `Node` output is stored — it is
guaranteed to be a `Node`, but not to satisfy the declared constraint. -/
theorem claim_C9 (classinfo : List PyClass) (factory : PyVal → PyVal) (v : PyVal)
    (c : PyContainer) (i j : Nat) :
    (isInstance v classinfo = true → coerceElem classinfo factory v = Except.ok v) ∧
    (isInstance v classinfo = false → isNodeABC (factory v) = true →
      coerceElem classinfo factory v = Except.ok (factory v)) ∧
    (isInstance v classinfo = false → isNodeABC (factory v) = false →
      coerceElem classinfo factory v = Except.error invalidElementMsg) ∧
    (∀ n, coerceElem classinfo factory v = Except.ok n → isNodeABC n = true) ∧
    (∀ n, coerceElem c.classinfo factory v = Except.ok n →
      containerAppend c factory [v] = Except.ok { c with nodeList := c.nodeList ++ [n] } ∧
      containerInsertOne c factory i v =
        Except.ok { c with nodeList := c.nodeList.insertIdx i n } ∧
      containerSetItem c factory j v =
        Except.ok { c with nodeList := c.nodeList.set j n }) ∧
    (∀ m, coerceElem c.classinfo factory v = Except.error m →
      containerAppend c factory [v] = Except.error m ∧
      containerInsertOne c factory i v = Except.error m ∧
      containerSetItem c factory j v = Except.error m) ∧
    (∀ n, coerceElem classinfo factory v = Except.ok n →
      containerInit classinfo factory [v] = Except.ok ⟨classinfo, [n]⟩) ∧
    (∀ m, coerceElem classinfo factory v = Except.error m →
      containerInit classinfo factory [v] = Except.error m) := by
  refine ⟨?_, ?_, ?_, ?_, ?_, ?_, ?_, ?_⟩
  · intro h
    simp [coerceElem, h]
  · intro h1 h2
    simp [coerceElem, h1, wrappedFactory, h2]
  · intro h1 h2
    simp [coerceElem, h1, wrappedFactory, h2]
  · intro n hn
    unfold coerceElem at hn
    by_cases h : isInstance v classinfo = true
    · rw [if_pos h] at hn
      injection hn with hn
      subst hn
      rcases v with _ | _
      · rfl
      · simp [isInstance] at h
    · rw [Bool.not_eq_true] at h
      rw [if_neg (by simp [h])] at hn
      unfold wrappedFactory at hn
      by_cases h2 : isNodeABC (factory v) = true
      · rw [if_pos h2] at hn
        injection hn with hn
        subst hn
        exact h2
      · rw [Bool.not_eq_true] at h2
        rw [if_neg (by simp [h2])] at hn
        cases hn
  · intro n hn
    refine ⟨?_, ?_, ?_⟩
    · simp only [containerAppend, coerceList, hn]
      rfl
    · simp only [containerInsertOne, hn]
      rfl
    · simp only [containerSetItem, hn]
      rfl
  · intro m hm
    refine ⟨?_, ?_, ?_⟩
    · simp only [containerAppend, coerceList, hm]
      rfl
    · simp only [containerInsertOne, hm]
      rfl
    · simp only [containerSetItem, hm]
      rfl
  · intro n hn
    simp only [containerInit, coerceList, hn]
    rfl
  · intro m hm
    simp only [containerInit, coerceList, hm]
    rfl

/-- Witness for C9 (amended) at concrete inputs: the raw value is coerced by
the `TokenList` factory and stored. -/
theorem claim_C9_witness :
    isInstance (PyVal.raw "x") [PyClass.expr] = false ∧
    isNodeABC (tokenListFactory (PyVal.raw "x")) = true ∧
    coerceElem [PyClass.expr] tokenListFactory (PyVal.raw "x") =
      Except.ok (tokenListFactory (PyVal.raw "x")) :=
  ⟨rfl, rfl,
    (claim_C9 [PyClass.expr] tokenListFactory (PyVal.raw "x") ⟨[PyClass.expr], []⟩ 0 0).2.1
      rfl rfl⟩

/-! ## Claim C10: qualifier stripping -/

/-- C10, counterexample to the claim's example value: `'enumerate_t'` does
get its `enum` prefix stripped (no word boundary is required), but the
result is `'erate_t'` — `'enumerate_t'[4:]` — not the `'rate_t'` the claim
states. -/
theorem claim_C10_counterexample :
    qualStrip "enumerate_t" = "erate_t" ∧ "erate_t" ≠ "rate_t" := by
  refine ⟨rfl, ?_⟩
  decide

/-- C10 (amended): the qualifier strip is a plain character-prefix test with
no word-boundary requirement, checking `struct`, then `enum`, then `union`
in that fixed order and stripping only the first that matches, followed by a
left whitespace strip; so any type text starting with `enum` (and not with
`struct`) loses its first four characters — `'enumerate_t'` becomes
`'erate_t'` — before being resolved against the declaration-name map. -/
theorem claim_C10 (s : String)
    (h1 : pyStartsWith s "struct" = false) (h2 : pyStartsWith s "enum" = true) :
    qualStrip s = pyLStrip (pyDropChars s 4) ∧
    qualStrip "enumerate_t" = "erate_t" ∧
    resolveMember [("erate_t", 7)] "enumerate_t" = some (true, 7) := by
  refine ⟨?_, rfl, rfl⟩
  unfold qualStrip
  simp [h1, h2]

/-- Witness for C10 (amended) at `'enumerate_t'`. -/
theorem claim_C10_witness :
    qualStrip "enumerate_t" = pyLStrip (pyDropChars "enumerate_t" 4) :=
  (claim_C10 "enumerate_t" (by decide) (by decide)).1
